import Mathlib

/-!
# Shallow embedding of `langgraph_runtime_inmem_open`

This file embeds the storage semantics of `store.py` (class `InMemoryStore`,
class `DiskBackedInMemStore`) and `checkpoint.py` (class `MemorySaver`) and
proves or refutes the specification's claims about them.

Modelling conventions:
* A Python `dict` is an association list that preserves insertion order;
  assignment replaces the value in place when the key is present and appends
  otherwise, and `pop` removes the key's entry.  Python dict keys are unique,
  so removal is written as a filter over the key.
* A Python `set` of namespaces is a duplicate-free list: adding an element
  that is already present leaves the set unchanged, otherwise it is appended.
* Python `float` instants and TTLs (`time.time()`, `ttl`) are modelled as
  rationals, and the current clock reading is passed explicitly to the
  operations that consult it.
* Record values are kept abstract: a record is a Python dict from field name
  to a value of an arbitrary type `α` with decidable equality, since the code
  only ever compares values for equality.
-/

namespace LangGraphInmem

/-- Lookup in a Python dict modelled as an association list. -/
def dictGet {α : Type} (d : List (String × α)) (k : String) : Option α :=
  match d with
  | [] => none
  | (k', v) :: rest => if k' = k then some v else dictGet rest k

/-- Python dict assignment `d[k] = v`: replace in place when present,
append otherwise. -/
def dictInsert {α : Type} (d : List (String × α)) (k : String) (v : α) :
    List (String × α) :=
  match d with
  | [] => [(k, v)]
  | (k', v') :: rest =>
      if k' = k then (k, v) :: rest else (k', v') :: dictInsert rest k v

/-- Python `d.pop(k, None)`: remove the entry for `k` when present.  Since a
Python dict holds each key at most once this is the same as filtering the
key out. -/
def dictPop {α : Type} (d : List (String × α)) (k : String) :
    List (String × α) :=
  d.filter (fun p => !(p.1 = k : Bool))

/-- A namespace: the tuple of path segments passed to the store. -/
abbrev NS := List String

/-- A record value: a Python dict from field name to field value. -/
abbrev Record (α : Type) := List (String × α)

/-- Python `set.add` on the namespace set, keeping first-insertion order. -/
def setAdd (s : List NS) (ns : NS) : List NS :=
  if ns ∈ s then s else s ++ [ns]

/-- `str.join`: the `":".join(namespace)` part of `InMemoryStore._make_key`. -/
def joinColon : List String → String
  | [] => ""
  | [s] => s
  | s :: rest => s ++ ":" ++ joinColon rest

/-- `InMemoryStore._make_key`: `f"{':'.join(namespace)}:{key}"`. -/
def _make_key (ns : NS) (key : String) : String :=
  joinColon ns ++ ":" ++ key

/-- Python `str.startswith`, read as: the characters of `pre` are a prefix of
the characters of `s`. -/
def pyStartswith (s pre : String) : Bool :=
  pre.data.isPrefixOf s.data

/-- Python slice `xs[-n:]` (used by `list_namespaces` for the suffix filter):
for `n = 0` the slice bound `-0` is `0`, so the slice is the whole list;
for `n > 0` it is the last `min n (length xs)` elements. -/
def pyTailSlice {β : Type} (xs : List β) (n : Nat) : List β :=
  if n = 0 then xs else xs.drop (xs.length - n)

/-- The state of `InMemoryStore`: `_data` maps composite keys to records,
`_namespaces` is the set of namespaces ever put, `_ttl_data` maps composite
keys to absolute expiry instants. -/
structure InMemoryStore (α : Type) where
  _data : List (String × Record α)
  _namespaces : List NS
  _ttl_data : List (String × Rat)
deriving DecidableEq

/-- `InMemoryStore.__init__`: empty data, namespace set and TTL table. -/
def InMemoryStore.empty {α : Type} : InMemoryStore α := ⟨[], [], []⟩

/-- `InMemoryStore.get`: look up the composite key (the `refresh_ttl`
argument is ignored by the code). -/
def InMemoryStore.get {α : Type} (s : InMemoryStore α) (ns : NS)
    (key : String) : Option (Record α) :=
  dictGet s._data (_make_key ns key)

/-- `InMemoryStore.put`: store the record under the composite key, register
the namespace, and when `ttl` is given record the expiry instant
`time.time() + ttl * 60` (`now` is the clock reading). -/
def InMemoryStore.put {α : Type} (s : InMemoryStore α) (ns : NS)
    (key : String) (value : Record α) (ttl : Option Rat) (now : Rat) :
    InMemoryStore α :=
  let ns_key := _make_key ns key
  { _data := dictInsert s._data ns_key value
    _namespaces := setAdd s._namespaces ns
    _ttl_data :=
      match ttl with
      | none => s._ttl_data
      | some t => dictInsert s._ttl_data ns_key (now + t * 60) }

/-- `InMemoryStore.delete`: pop the composite key from the data and the TTL
table; absent keys are ignored. -/
def InMemoryStore.delete {α : Type} (s : InMemoryStore α) (ns : NS)
    (key : String) : InMemoryStore α :=
  let ns_key := _make_key ns key
  { _data := dictPop s._data ns_key
    _namespaces := s._namespaces
    _ttl_data := dictPop s._ttl_data ns_key }

/-- `InMemoryStore._matches_filter`: every (field, expected) pair of the
filter dict must be present in the record with an equal value. -/
def _matches_filter {α : Type} [DecidableEq α] (value : Record α)
    (filter_dict : Record α) : Bool :=
  filter_dict.all fun fv =>
    match dictGet value fv.1 with
    | none => false
    | some v => v = fv.2

/-- `InMemoryStore.search`: scan the data dict in order, keep the values
whose composite key starts with `_make_key(namespace_prefix, "")` and which
pass the filter (a `None` filter passes everything), then slice
`results[offset : offset + limit]`. -/
def InMemoryStore.search {α : Type} [DecidableEq α] (s : InMemoryStore α)
    (npre : NS) (filter : Option (Record α)) (limit offset : Nat) :
    List (Record α) :=
  let pre_str := _make_key npre ""
  let results := (s._data.filter fun kv =>
    pyStartswith kv.1 pre_str &&
      (match filter with
       | none => true
       | some f => _matches_filter kv.2 f)).map Prod.snd
  (results.drop offset).take limit

/-- `InMemoryStore.list_namespaces`: filter the known namespaces by leading
segments (`ns[:len(prefix)] == prefix`), trailing segments
(`ns[-len(suffix):] == suffix`) and depth, then slice
`namespaces[offset : offset + limit]`. -/
def InMemoryStore.list_namespaces {α : Type} (s : InMemoryStore α)
    ( pre : Option NS) (suffix : Option NS) (max_depth : Option Nat)
    (limit offset : Nat) : List NS :=
  let n1 := s._namespaces
  let n2 :=
    match pre with
    | none => n1
    | some p => n1.filter fun ns => ns.take p.length = p
  let n3 :=
    match suffix with
    | none => n2
    | some suf => n2.filter fun ns => pyTailSlice ns suf.length = suf
  let n4 :=
    match max_depth with
    | none => n3
    | some d => n3.filter fun ns => ns.length ≤ d
  (n4.drop offset).take limit

/-- A mutating operation on the store, used to talk about reachability. -/
inductive StoreOp (α : Type) where
  | putOp (ns : NS) (key : String) (value : Record α) (ttl : Option Rat)
      (now : Rat)
  | delOp (ns : NS) (key : String)

/-- Apply one operation. -/
def applyOp {α : Type} (s : InMemoryStore α) : StoreOp α → InMemoryStore α
  | .putOp ns k v ttl now => s.put ns k v ttl now
  | .delOp ns k => s.delete ns k

/-- Apply a sequence of operations in order. -/
def applyOps {α : Type} (s : InMemoryStore α) (ops : List (StoreOp α)) :
    InMemoryStore α :=
  ops.foldl applyOp s

/-! ## The durable mirror (`DiskBackedInMemStore`)

`_save_to_disk` serializes the whole state as one JSON document
`{"data": ..., "namespaces": [[...segments], ...], "ttl_data": ...}`;
`_load_from_disk` reads it back.  JSON has no tuples, so the namespace
tuples are serialized as JSON arrays and `json.load` returns them as Python
*lists*.  `_load_from_disk` then evaluates
`set(data.get("namespaces", []))`, and Python `set()` hashes its elements:
a list is unhashable, so this raises `TypeError` as soon as the file holds
at least one namespace.  Only `FileNotFoundError` and `json.JSONDecodeError`
are caught, so the `TypeError` escapes the constructor. -/

/-- The persisted JSON document written by
`DiskBackedInMemStore._save_to_disk`. -/
structure PersistedDoc (α : Type) where
  data : List (String × Record α)
  namespaces : List NS
  ttl_data : List (String × Rat)
deriving DecidableEq

/-- `DiskBackedInMemStore._save_to_disk`: dump the full state. -/
def _save_to_disk {α : Type} (s : InMemoryStore α) : PersistedDoc α :=
  { data := s._data
    namespaces := s._namespaces
    ttl_data := s._ttl_data }

/-- Python `set(xs)` where the elements of `xs` are the JSON arrays produced
by deserializing the persisted namespace tuples.  `json.load` yields Python
lists for arrays, lists are unhashable, and `set()` hashes every element, so
the call raises `TypeError` unless `xs` is empty. -/
def pySetOfLists (xs : List NS) : Except String (List NS) :=
  match xs with
  | [] => Except.ok []
  | _ => Except.error "TypeError: unhashable type: list"

/-- `DiskBackedInMemStore._load_from_disk`, applied to a well-formed JSON
document (a missing or unparsable file is the caught path in the source; the
uncaught `TypeError` from `set()` propagates as an error). -/
def _load_from_disk {α : Type} (doc : PersistedDoc α) :
    Except String (InMemoryStore α) :=
  match pySetOfLists doc.namespaces with
  | Except.ok nss => Except.ok ⟨doc.data, nss, doc.ttl_data⟩
  | Except.error e => Except.error e

/-! ## The checkpoint log (`MemorySaver`) -/

/-- The metadata recorded by `MemorySaver.put`:
`{"timestamp": time.time(), "size": len(str(checkpoint))}`. -/
structure CkptMeta where
  timestamp : Rat
  size : Nat
deriving DecidableEq

/-- The state of `MemorySaver`: `_checkpoints` maps thread ids to the latest
checkpoint, `_metadata` maps thread ids to write-time metadata.  The
checkpoint payload is an abstract type `γ`. -/
structure MemorySaver (γ : Type) where
  _checkpoints : List (String × γ)
  _metadata : List (String × CkptMeta)

/-- `MemorySaver.__init__`. -/
def MemorySaver.empty {γ : Type} : MemorySaver γ := ⟨[], []⟩

/-- `MemorySaver.get`. -/
def MemorySaver.get {γ : Type} (sv : MemorySaver γ) (thread_id : String) :
    Option γ :=
  dictGet sv._checkpoints thread_id

/-- `MemorySaver.put`: replace the checkpoint and its metadata; `pyStr`
models Python `str` on the checkpoint payload and `now` the `time.time()`
reading taken inside the call. -/
def MemorySaver.put {γ : Type} (pyStr : γ → String) (sv : MemorySaver γ)
    (thread_id : String) (checkpoint : γ) (now : Rat) : MemorySaver γ :=
  { _checkpoints := dictInsert sv._checkpoints thread_id checkpoint
    _metadata := dictInsert sv._metadata thread_id
      ⟨now, (pyStr checkpoint).length⟩ }

/-- `MemorySaver.delete`: pop the checkpoint and the metadata. -/
def MemorySaver.delete {γ : Type} (sv : MemorySaver γ) (thread_id : String) :
    MemorySaver γ :=
  { _checkpoints := dictPop sv._checkpoints thread_id
    _metadata := dictPop sv._metadata thread_id }

/-- `MemorySaver.list_threads`: `list(self._checkpoints.keys())`. -/
def MemorySaver.list_threads {γ : Type} (sv : MemorySaver γ) : List String :=
  sv._checkpoints.map Prod.fst

/-- `MemorySaver.get_metadata`. -/
def MemorySaver.get_metadata {γ : Type} (sv : MemorySaver γ)
    (thread_id : String) : Option CkptMeta :=
  dictGet sv._metadata thread_id

/-! ## Character-level view of the key codec

The composite key of `(ns, key)` is, at character level, the colon-join of
the token list `ns.map String.data ++ [key.data]` (with a leading extra
colon when `ns` is empty).  The lemmas about injectivity and prefix testing
of the codec live at this level. -/

/-- Colon-join of character-level tokens. -/
def joinChars : List (List Char) → List Char
  | [] => []
  | [s] => s
  | s :: rest => s ++ ':' :: joinChars rest

/-- A string that does not contain the delimiter `':'`. -/
abbrev ColonFree (s : String) : Prop := ':' ∉ s.data

/-! ## Concrete fixtures used by counterexamples and witnesses -/

/-- A concrete record. -/
def exVal : Record Nat := [("f", 1)]

/-- One `put` under the delimiter-carrying namespace `("a:b",)`. -/
def exStoreColl : InMemoryStore Nat :=
  InMemoryStore.empty.put ["a:b"] "c" exVal none 0

/-- One `put` under `("a",)`. -/
def exStoreA : InMemoryStore Nat :=
  InMemoryStore.empty.put ["a"] "k" exVal none 0

/-- One `put` under the empty-segment namespace `("",)`. -/
def exStoreEmptySeg : InMemoryStore Nat :=
  InMemoryStore.empty.put [""] "k" exVal none 0

end LangGraphInmem

namespace LangGraphInmem

/-! ## Dictionary lemmas -/

variable {α : Type}

theorem dictGet_dictInsert (d : List (String × α)) (k ck : String) (v : α) :
    dictGet (dictInsert d k v) ck = if ck = k then some v else dictGet d ck := by
  induction d with
  | nil =>
    by_cases h : ck = k
    · subst h; simp [dictInsert, dictGet]
    · simp [dictInsert, dictGet, h, Ne.symm h]
  | cons p rest ih =>
    obtain ⟨k', v'⟩ := p
    by_cases h1 : k' = k
    · subst h1
      by_cases h2 : ck = k'
      · subst h2; simp [dictInsert, dictGet]
      · simp [dictInsert, dictGet, h2, Ne.symm h2]
    · by_cases h2 : ck = k'
      · subst h2
        simp [dictInsert, dictGet, h1, fun h : ck = k => h1 (h ▸ rfl)]
      · simp [dictInsert, dictGet, h1, Ne.symm h2, ih]

theorem dictGet_dictPop (d : List (String × α)) (k ck : String) :
    dictGet (dictPop d k) ck = if ck = k then none else dictGet d ck := by
  induction d with
  | nil => simp [dictPop, dictGet]
  | cons p rest ih =>
    obtain ⟨k', v'⟩ := p
    by_cases h1 : k' = k
    · subst h1
      by_cases h2 : ck = k'
      · subst h2; simp [dictPop, dictGet] at ih ⊢; simpa using ih
      · simp [dictPop, dictGet, h2, Ne.symm h2] at ih ⊢; simpa [h2] using ih
    · by_cases h2 : ck = k'
      · subst h2
        simp [dictPop, dictGet, h1, fun h : ck = k => h1 (h ▸ rfl)]
      · simp [dictPop, dictGet, h1, Ne.symm h2] at ih ⊢; simpa [h2] using ih

theorem dictPop_of_get_none (d : List (String × α)) (k : String)
    (h : dictGet d k = none) : dictPop d k = d := by
  induction d with
  | nil => rfl
  | cons p rest ih =>
    obtain ⟨k', v'⟩ := p
    by_cases h1 : k' = k
    · simp [dictGet, h1] at h
    · simp only [dictGet, if_neg h1] at h
      simp [dictPop, h1, List.filter] at ih ⊢
      exact ih h

theorem dictPop_idem (d : List (String × α)) (k : String) :
    dictPop (dictPop d k) k = dictPop d k := by
  simp [dictPop, List.filter_filter]

theorem not_mem_map_fst_dictPop (d : List (String × α)) (k : String) :
    k ∉ (dictPop d k).map Prod.fst := by
  intro h
  obtain ⟨p, hp, hfst⟩ := List.mem_map.mp h
  have := List.of_mem_filter hp
  simp [hfst] at this

/-! ## Character-level lemmas about the key codec -/

theorem joinColon_data (l : List String) :
    (joinColon l).data = joinChars (l.map String.data) := by
  induction l with
  | nil => rfl
  | cons s rest ih =>
    cases rest with
    | nil => rfl
    | cons b rest' =>
      simp only [joinColon, joinChars, List.map, String.data_append, ih]
      simp [joinChars]

theorem make_key_data (ns : NS) (key : String) :
    (_make_key ns key).data = (joinColon ns).data ++ ':' :: key.data := by
  simp [_make_key, String.data_append]

theorem joinChars_cons_of_ne_nil (s : List Char) (l : List (List Char))
    (h : l ≠ []) : joinChars (s :: l) = s ++ ':' :: joinChars l := by
  cases l with
  | nil => exact absurd rfl h
  | cons b l' => rfl

theorem joinChars_concat (l : List (List Char)) (x : List Char)
    (h : l ≠ []) : joinChars (l ++ [x]) = joinChars l ++ ':' :: x := by
  induction l with
  | nil => exact absurd rfl h
  | cons s rest ih =>
    cases rest with
    | nil => rfl
    | cons b rest' =>
      rw [List.cons_append, joinChars_cons_of_ne_nil _ _ (by simp),
        ih (by simp), joinChars_cons_of_ne_nil s (b :: rest') (by simp)]
      simp

theorem make_key_data_of_ne_nil (ns : NS) (key : String) (h : ns ≠ []) :
    (_make_key ns key).data = joinChars (ns.map String.data ++ [key.data]) := by
  rw [make_key_data, joinColon_data, joinChars_concat]
  simpa using h

theorem colon_mem_append_cons (a r : List Char) : ':' ∈ a ++ ':' :: r := by
  simp

theorem colon_token_eq {a b r1 r2 : List Char} (ha : ':' ∉ a) (hb : ':' ∉ b)
    (h : a ++ ':' :: r1 = b ++ ':' :: r2) : a = b ∧ r1 = r2 := by
  induction a generalizing b with
  | nil =>
    cases b with
    | nil => simpa using h
    | cons c b' =>
      simp only [List.nil_append, List.cons_append, List.cons.injEq] at h
      exact absurd (by simp [← h.1]) hb
  | cons c a' ih =>
    cases b with
    | nil =>
      simp only [List.cons_append, List.nil_append, List.cons.injEq] at h
      exact absurd (by simp [h.1]) ha
    | cons d b' =>
      simp only [List.cons_append, List.cons.injEq] at h
      have ha' : ':' ∉ a' := fun hm => ha (List.mem_cons_of_mem _ hm)
      have hb' : ':' ∉ b' := fun hm => hb (List.mem_cons_of_mem _ hm)
      obtain ⟨e1, e2⟩ := ih ha' hb' h.2
      exact ⟨by rw [h.1, e1], e2⟩

theorem colon_token_pre_iff {a b X Y : List Char} (ha : ':' ∉ a)
    (hb : ':' ∉ b) : a ++ ':' :: X <+: b ++ ':' :: Y ↔ a = b ∧ X <+: Y := by
  constructor
  · rintro ⟨t, ht⟩
    rw [List.append_assoc, List.cons_append] at ht
    obtain ⟨e1, e2⟩ := colon_token_eq ha hb ht
    exact ⟨e1, ⟨t, e2⟩⟩
  · rintro ⟨rfl, t, ht⟩
    exact ⟨t, by rw [List.append_assoc, List.cons_append, ht]⟩

theorem joinChars_inj {l1 l2 : List (List Char)}
    (h1 : ∀ s ∈ l1, ':' ∉ s) (h2 : ∀ s ∈ l2, ':' ∉ s)
    (n1 : l1 ≠ []) (n2 : l2 ≠ []) (h : joinChars l1 = joinChars l2) :
    l1 = l2 := by
  induction l1 generalizing l2 with
  | nil => exact absurd rfl n1
  | cons a l1' ih =>
    cases l2 with
    | nil => exact absurd rfl n2
    | cons b l2' =>
      cases l1' with
      | nil =>
        cases l2' with
        | nil => simpa [joinChars] using h
        | cons c l2'' =>
          simp only [joinChars] at h
          exact absurd (h ▸ colon_mem_append_cons b _) (h1 a (by simp))
      | cons c l1'' =>
        cases l2' with
        | nil =>
          simp only [joinChars] at h
          exact absurd (h ▸ colon_mem_append_cons a _) (h2 b (by simp))
        | cons d l2'' =>
          simp only [joinChars] at h
          obtain ⟨e1, e2⟩ :=
            colon_token_eq (h1 a (by simp)) (h2 b (by simp)) h
          have := ih (fun s hs => h1 s (by simp [hs]))
            (fun s hs => h2 s (by simp [hs])) (by simp) (by simp) e2
          rw [e1, this]

theorem joinChars_pre_iff (p : List (List Char)) :
    ∀ (ns : List (List Char)) (k : List Char), p ≠ [] →
    (∀ s ∈ p, s ≠ [] ∧ ':' ∉ s) → (∀ s ∈ ns, s ≠ [] ∧ ':' ∉ s) →
    ':' ∉ k →
    (joinChars (p ++ [[]]) <+: joinChars (ns ++ [k]) ↔ p <+: ns) := by
  induction p with
  | nil => intro ns k hp; exact absurd rfl hp
  | cons a p' ih =>
    intro ns k _ hps hns hk
    have hdecompP : joinChars ((a :: p') ++ [[]]) =
        a ++ ':' :: joinChars (p' ++ [[]]) := by
      simp only [List.cons_append, joinChars]
      cases p' <;> simp [joinChars]
    have ha : ':' ∉ a := (hps a (by simp)).2
    have hane : a ≠ [] := (hps a (by simp)).1
    cases ns with
    | nil =>
      simp only [List.nil_append, joinChars, hdecompP]
      constructor
      · intro hpre
        have : ':' ∈ k := hpre.subset (colon_mem_append_cons a _)
        exact absurd this hk
      · intro hpre
        have := hpre.length_le
        simp at this
    | cons b ns' =>
      have hdecompN : joinChars ((b :: ns') ++ [k]) =
          b ++ ':' :: joinChars (ns' ++ [k]) := by
        simp only [List.cons_append, joinChars]
        cases ns' <;> simp [joinChars]
      have hb : ':' ∉ b := (hns b (by simp)).2
      rw [hdecompP, hdecompN, colon_token_pre_iff ha hb,
        List.cons_prefix_cons]
      constructor
      · rintro ⟨rfl, hpre⟩
        refine ⟨rfl, ?_⟩
        cases p' with
        | nil => exact List.nil_prefix
        | cons c p'' =>
          exact (ih (ns') k (by simp)
            (fun s hs => hps s (by simp [hs]))
            (fun s hs => hns s (by simp [hs])) hk).mp hpre
      · rintro ⟨rfl, hpre⟩
        refine ⟨rfl, ?_⟩
        cases p' with
        | nil =>
          simp [joinChars]
        | cons c p'' =>
          exact (ih (ns') k (by simp)
            (fun s hs => hps s (by simp [hs]))
            (fun s hs => hns s (by simp [hs])) hk).mpr hpre

/-! ## String-level lemmas about the key codec -/

theorem map_pre_iff {β γ : Type} (f : β → γ) (hf : Function.Injective f)
    (l1 l2 : List β) : l1.map f <+: l2.map f ↔ l1 <+: l2 := by
  constructor
  · intro h
    induction l1 generalizing l2 with
    | nil => exact List.nil_prefix
    | cons a l1' ih =>
      cases l2 with
      | nil =>
        have := h.length_le
        simp at this
      | cons b l2' =>
        simp only [List.map, List.cons_prefix_cons] at h
        obtain ⟨h1, h2⟩ := h
        exact List.cons_prefix_cons.mpr ⟨hf h1, ih l2' h2⟩
  · rintro ⟨t, ht⟩
    exact ⟨t.map f, by rw [← List.map_append, ht]⟩

theorem data_injective : Function.Injective String.data :=
  fun _ _ h => String.ext h

theorem data_eq_nil_iff (s : String) : s.data = [] ↔ s = "" := by
  constructor
  · intro h; exact String.ext h
  · intro h; rw [h]

theorem make_key_empty_data (key : String) :
    (_make_key [] key).data = ':' :: key.data := by
  simp [make_key_data, joinColon, joinChars]

theorem pyStartswith_make_key_iff (p ns : NS) (k : String)
    (hp : p ≠ []) (hps : ∀ s ∈ p, s ≠ "" ∧ ColonFree s)
    (hns : ∀ s ∈ ns, s ≠ "" ∧ ColonFree s) (hk : ColonFree k) :
    (pyStartswith (_make_key ns k) (_make_key p "") = true ↔ p <+: ns) := by
  rw [pyStartswith, List.isPrefixOf_iff_prefix]
  have hpd : (_make_key p "").data = joinChars (p.map String.data ++ [[]]) := by
    rw [make_key_data_of_ne_nil p "" hp]
  have htokP : ∀ s ∈ p.map String.data, s ≠ [] ∧ ':' ∉ s := by
    intro s hs
    obtain ⟨t, ht, rfl⟩ := List.mem_map.mp hs
    exact ⟨fun hnil => (hps t ht).1 ((data_eq_nil_iff t).mp hnil),
      (hps t ht).2⟩
  cases ns with
  | nil =>
    rw [hpd, make_key_empty_data]
    constructor
    · intro hpre
      exfalso
      cases p with
      | nil => exact hp rfl
      | cons a p' =>
        have hdec : joinChars ((a :: p').map String.data ++ [[]]) =
            a.data ++ ':' :: joinChars (p'.map String.data ++ [[]]) := by
          simp only [List.map, List.cons_append]
          exact joinChars_cons_of_ne_nil _ _ (by simp)
        rw [hdec] at hpre
        have hane : a.data ≠ [] := fun hnil =>
          (hps a (by simp)).1 ((data_eq_nil_iff a).mp hnil)
        obtain ⟨c, cs, hcs⟩ := List.exists_cons_of_ne_nil hane
        rw [hcs, List.cons_append, List.cons_prefix_cons] at hpre
        have : ':' ∈ a.data := by rw [hcs, hpre.1]; simp
        exact (hps a (by simp)).2 this
    · intro hpre
      exact absurd (List.prefix_nil.mp hpre) hp
  | cons b ns' =>
    rw [hpd, make_key_data_of_ne_nil (b :: ns') k (by simp)]
    rw [joinChars_pre_iff (p.map String.data) ((b :: ns').map String.data)
      k.data (by simpa using hp) htokP
      (by
        intro s hs
        obtain ⟨t, ht, rfl⟩ := List.mem_map.mp hs
        exact ⟨fun hnil => (hns t ht).1 ((data_eq_nil_iff t).mp hnil),
          (hns t ht).2⟩)
      hk]
    exact map_pre_iff String.data data_injective p (b :: ns')

theorem pyStartswith_empty_key_false (a : String) (rest : NS) (k : String)
    (ha : a ≠ "") (hca : ColonFree a) :
    pyStartswith (_make_key (a :: rest) k) (_make_key [] "") = false := by
  rw [pyStartswith, Bool.eq_false_iff]
  intro hpre
  rw [ List.isPrefixOf_iff_prefix] at hpre
  rw [make_key_data_of_ne_nil (a :: rest) k (by simp)] at hpre
  have hdec : joinChars ((a :: rest).map String.data ++ [k.data]) =
      a.data ++ ':' :: joinChars (rest.map String.data ++ [k.data]) := by
    simp only [List.map, List.cons_append]
    exact joinChars_cons_of_ne_nil _ _ (by simp)
  rw [hdec, make_key_empty_data] at hpre
  have hane : a.data ≠ [] := fun hnil => ha ((data_eq_nil_iff a).mp hnil)
  obtain ⟨c, cs, hcs⟩ := List.exists_cons_of_ne_nil hane
  rw [hcs, List.cons_append] at hpre
  have : (':' : Char) = c := by simpa using hpre
  exact hca (by rw [hcs, ← this]; simp)

/-! ## Store-level helper lemmas -/

theorem mem_setAdd_of_mem (s : List NS) (ns x : NS) (h : ns ∈ s) :
    ns ∈ setAdd s x := by
  unfold setAdd
  split
  · exact h
  · exact List.mem_append_left _ h

theorem mem_setAdd_self (s : List NS) (ns : NS) : ns ∈ setAdd s ns := by
  unfold setAdd
  split
  · assumption
  · simp

theorem mem_namespaces_applyOp (s : InMemoryStore α)
    (op : StoreOp α) (ns : NS) (h : ns ∈ s._namespaces) :
    ns ∈ (applyOp s op)._namespaces := by
  cases op with
  | putOp ns' k v ttl now => exact mem_setAdd_of_mem _ _ _ h
  | delOp ns' k => exact h

theorem mem_namespaces_applyOps (s : InMemoryStore α)
    (ops : List (StoreOp α)) (ns : NS) (h : ns ∈ s._namespaces) :
    ns ∈ (applyOps s ops)._namespaces := by
  induction ops generalizing s with
  | nil => exact h
  | cons op ops' ih => exact ih _ (mem_namespaces_applyOp s op ns h)

theorem ttl_consistent_applyOp (s : InMemoryStore α)
    (op : StoreOp α)
    (h : ∀ ck, dictGet s._data ck = none → dictGet s._ttl_data ck = none) :
    ∀ ck, dictGet (applyOp s op)._data ck = none →
      dictGet (applyOp s op)._ttl_data ck = none := by
  intro ck hck
  cases op with
  | putOp ns k v ttl now =>
    simp only [applyOp, InMemoryStore.put] at hck ⊢
    rw [dictGet_dictInsert] at hck
    by_cases he : ck = _make_key ns k
    · rw [if_pos he] at hck; cases hck
    · rw [if_neg he] at hck
      cases ttl with
      | none => exact h ck hck
      | some t => rw [dictGet_dictInsert, if_neg he]; exact h ck hck
  | delOp ns k =>
    simp only [applyOp, InMemoryStore.delete] at hck ⊢
    rw [dictGet_dictPop] at hck ⊢
    by_cases he : ck = _make_key ns k
    · rw [if_pos he]
    · rw [if_neg he] at hck ⊢; exact h ck hck

theorem ttl_consistent_applyOps (ops : List (StoreOp α))
    (s : InMemoryStore α)
    (h : ∀ ck, dictGet s._data ck = none → dictGet s._ttl_data ck = none) :
    ∀ ck, dictGet (applyOps s ops)._data ck = none →
      dictGet (applyOps s ops)._ttl_data ck = none := by
  induction ops generalizing s with
  | nil => exact h
  | cons op ops' ih => exact ih (applyOp s op) (ttl_consistent_applyOp s op h)

theorem mem_search_exists [DecidableEq α] (s : InMemoryStore α)
    (npre : NS) (filter : Option (Record α)) (limit offset : Nat)
    (v : Record α) (hv : v ∈ s.search npre filter limit offset) :
    ∃ ck, (ck, v) ∈ s._data ∧
      pyStartswith ck (_make_key npre "") = true := by
  simp only [InMemoryStore.search] at hv
  have hv1 := List.mem_of_mem_take hv
  have hv2 := List.mem_of_mem_drop hv1
  obtain ⟨kv, hkv, rfl⟩ := List.mem_map.mp hv2
  have hp := List.of_mem_filter hkv
  rw [Bool.and_eq_true] at hp
  exact ⟨kv.1, List.mem_of_mem_filter hkv, hp.1⟩

end LangGraphInmem

namespace LangGraphInmem

/-! ## The claims -/

/-- Claim C1, counterexample: the composite-key codec is not injective.
The namespace `("a:b",)` with leaf key `"c"` and the namespace `("a",)` with
leaf key `"b:c"` produce the same composite key, while the namespaces
differ. -/
theorem c1_key_codec_collision :
    _make_key ["a:b"] "c" = _make_key ["a"] "b:c" ∧ (["a:b"] : NS) ≠ ["a"] := by
  exact ⟨by decide, by decide⟩

/-- Claim C1 (amended): the codec is injective on delimiter-free inputs.
If both namespaces are nonempty and no segment or leaf key contains the
delimiter character, then equal composite keys force element-wise equal
namespaces and equal leaf keys. -/
theorem c1_make_key_injective_colonFree (ns1 ns2 : NS) (k1 k2 : String)
    (h1 : ns1 ≠ []) (h2 : ns2 ≠ [])
    (hc1 : ∀ s ∈ ns1, ColonFree s) (hc2 : ∀ s ∈ ns2, ColonFree s)
    (hk1 : ColonFree k1) (hk2 : ColonFree k2)
    (heq : _make_key ns1 k1 = _make_key ns2 k2) : ns1 = ns2 ∧ k1 = k2 := by
  have hd : (_make_key ns1 k1).data = (_make_key ns2 k2).data := by rw [heq]
  rw [make_key_data_of_ne_nil _ _ h1, make_key_data_of_ne_nil _ _ h2] at hd
  have htok1 : ∀ s ∈ ns1.map String.data ++ [k1.data], ':' ∉ s := by
    intro s hs
    rcases List.mem_append.mp hs with hs | hs
    · obtain ⟨t, ht, rfl⟩ := List.mem_map.mp hs; exact hc1 t ht
    · rw [List.mem_singleton.mp hs]; exact hk1
  have htok2 : ∀ s ∈ ns2.map String.data ++ [k2.data], ':' ∉ s := by
    intro s hs
    rcases List.mem_append.mp hs with hs | hs
    · obtain ⟨t, ht, rfl⟩ := List.mem_map.mp hs; exact hc2 t ht
    · rw [List.mem_singleton.mp hs]; exact hk2
  have htokeq := joinChars_inj htok1 htok2 (by simp) (by simp) hd
  have hsplit := List.append_inj' htokeq (by simp)
  refine ⟨List.map_injective_iff.mpr data_injective hsplit.1, ?_⟩
  have hk := hsplit.2
  simp only [List.cons.injEq, and_true] at hk
  exact String.ext hk

/-- Claim C1, witness for the amended theorem at a concrete input. -/
theorem c1_injective_witness : (["a"] : NS) = ["a"] ∧ "b" = "b" :=
  c1_make_key_injective_colonFree ["a"] ["a"] "b" "b" (by decide) (by decide)
    (by decide) (by decide) (by decide) (by decide) rfl

/-- Claim C2: after any `put` (and arbitrary further operations), reloading
the document written by `_save_to_disk` raises the uncaught `TypeError` from
`set()` over the JSON-decoded namespace lists, instead of reconstructing an
equivalent store.  The round trip the claim asserts never succeeds once a
namespace exists. -/
theorem c2_mirror_reload_raises {α : Type} (s : InMemoryStore α) (ns : NS)
    (key : String) (value : Record α) (ttl : Option Rat) (now : Rat)
    (ops : List (StoreOp α)) :
    _load_from_disk (_save_to_disk (applyOps (s.put ns key value ttl now) ops)) =
      Except.error "TypeError: unhashable type: list" := by
  have hmem : ns ∈ (applyOps (s.put ns key value ttl now) ops)._namespaces :=
    mem_namespaces_applyOps _ _ _ (mem_setAdd_self _ _)
  cases hN : (applyOps (s.put ns key value ttl now) ops)._namespaces with
  | nil => rw [hN] at hmem; cases hmem
  | cons a l =>
    simp [_load_from_disk, _save_to_disk, pySetOfLists, hN]

/-- Claim C3, counterexample: after a `put` under `("a",)` the namespace is
known, yet `list_namespaces` with the empty suffix returns the empty list —
the empty suffix does not match every namespace as the claim states, because
the slice bound `-len(())` is `0` and `ns[0:]` is all of `ns`. -/
theorem c3_empty_suffix_excludes :
    (["a"] : NS) ∈ exStoreA._namespaces ∧
    exStoreA.list_namespaces none (some []) none 100 0 = [] := by
  exact ⟨by decide, by decide⟩

/-- Claim C3 (amended): for a known namespace (and no truncation by the
default limit of 100), `list_namespaces` with a nonempty suffix `suf`
includes `ns` iff the trailing `min (len suf) (len ns)` segments of `ns`
equal `suf`, while the empty suffix matches only the empty namespace. -/
theorem c3_suffix_filter {α : Type} (s : InMemoryStore α) (ns suf : NS)
    (hmem : ns ∈ s._namespaces) (hlen : s._namespaces.length ≤ 100) :
    (ns ∈ s.list_namespaces none (some suf) none 100 0 ↔
      (if suf = [] then ns = []
       else ns.drop (ns.length - suf.length) = suf)) := by
  have hfl : (s._namespaces.filter
      (fun n => decide (pyTailSlice n suf.length = suf))).length ≤ 100 :=
    le_trans (List.length_filter_le _ _) hlen
  simp only [InMemoryStore.list_namespaces, List.drop_zero]
  rw [List.take_of_length_le hfl, List.mem_filter]
  by_cases hsuf : suf = []
  · subst hsuf
    simp only [if_pos rfl, List.length_nil, pyTailSlice, if_pos rfl]
    constructor
    · intro h
      have := h.2
      simpa using this
    · intro h
      exact ⟨hmem, by simpa using h⟩
  · have hlen0 : suf.length ≠ 0 := by
      intro h0; exact hsuf (List.length_eq_zero.mp h0)
    rw [if_neg hsuf]
    constructor
    · intro h
      have := h.2
      simp only [pyTailSlice, if_neg hlen0, decide_eq_true_eq] at this
      exact this
    · intro h
      refine ⟨hmem, ?_⟩
      simp only [pyTailSlice, if_neg hlen0, decide_eq_true_eq]
      exact h

/-- Claim C3, witness for the amended theorem at a concrete input. -/
theorem c3_witness :
    (["a"] : NS) ∈ exStoreA.list_namespaces none (some ["a"]) none 100 0 :=
  (c3_suffix_filter exStoreA ["a"] ["a"] (by decide) (by decide)).mpr
    (by decide)

/-- Claim C4: immediately after `put(ns, key, value)`, `get(ns, key)`
returns `value`, for every starting state, TTL argument and clock
reading. -/
theorem c4_get_after_put {α : Type} (s : InMemoryStore α) (ns : NS)
    (key : String) (value : Record α) (ttl : Option Rat) (now : Rat) :
    (s.put ns key value ttl now).get ns key = some value := by
  simp [InMemoryStore.get, InMemoryStore.put, dictGet_dictInsert]

/-- Claim C5: once a namespace is passed to `put`, it stays in the
namespace set under every later sequence of puts and deletes, and (as long
as the set is not cut by the default pagination limit of 100)
`list_namespaces` keeps returning it. -/
theorem c5_namespace_monotone {α : Type} (s : InMemoryStore α) (ns : NS)
    (key : String) (value : Record α) (ttl : Option Rat) (now : Rat)
    (ops : List (StoreOp α)) :
    ns ∈ (applyOps (s.put ns key value ttl now) ops)._namespaces ∧
    ((applyOps (s.put ns key value ttl now) ops)._namespaces.length ≤ 100 →
      ns ∈ (applyOps (s.put ns key value ttl now) ops).list_namespaces
        none none none 100 0) := by
  have hmem : ns ∈ (applyOps (s.put ns key value ttl now) ops)._namespaces :=
    mem_namespaces_applyOps _ _ _ (mem_setAdd_self _ _)
  refine ⟨hmem, fun hlen => ?_⟩
  simp only [InMemoryStore.list_namespaces, List.drop_zero]
  rw [List.take_of_length_le hlen]
  exact hmem

/-- Claim C5, witness: the namespace survives deleting its only record. -/
theorem c5_witness :
    (["a"] : NS) ∈ (applyOps
      ((InMemoryStore.empty : InMemoryStore Nat).put ["a"] "k" exVal none 0)
      [StoreOp.delOp ["a"] "k"]).list_namespaces none none none 100 0 :=
  (c5_namespace_monotone InMemoryStore.empty ["a"] "k" exVal none 0
    [StoreOp.delOp ["a"] "k"]).2 (by decide)

/-- Claim C6: on every state reachable from a fresh store, after
`delete(ns, key)` the record and its expiry entry are gone; deleting an
absent key leaves the state unchanged; and repeating `delete` is a no-op. -/
theorem c6_delete_semantics {α : Type} (ops : List (StoreOp α)) (ns : NS)
    (key : String) :
    ((applyOps InMemoryStore.empty ops).delete ns key).get ns key = none ∧
    dictGet ((applyOps InMemoryStore.empty ops).delete ns key)._ttl_data
      (_make_key ns key) = none ∧
    ((applyOps InMemoryStore.empty ops).get ns key = none →
      (applyOps InMemoryStore.empty ops).delete ns key =
        applyOps InMemoryStore.empty ops) ∧
    ((applyOps InMemoryStore.empty ops).delete ns key).delete ns key =
      (applyOps InMemoryStore.empty ops).delete ns key := by
  refine ⟨?_, ?_, ?_, ?_⟩
  · simp [InMemoryStore.get, InMemoryStore.delete, dictGet_dictPop]
  · simp [InMemoryStore.delete, dictGet_dictPop]
  · intro hnone
    have httl : dictGet (applyOps (InMemoryStore.empty : InMemoryStore α)
        ops)._ttl_data (_make_key ns key) = none :=
      ttl_consistent_applyOps ops InMemoryStore.empty
        (fun ck _ => rfl) (_make_key ns key) hnone
    have h1 := dictPop_of_get_none _ _ hnone
    have h2 := dictPop_of_get_none _ _ httl
    simp [InMemoryStore.delete, h1, h2]
  · simp [InMemoryStore.delete, dictPop_idem]

/-- Claim C6, witness: deleting an absent key on a concrete reachable
state leaves it unchanged. -/
theorem c6_witness :
    (applyOps (InMemoryStore.empty : InMemoryStore Nat)
      [StoreOp.putOp ["a"] "x" exVal none 0]).delete ["b"] "y" =
    applyOps InMemoryStore.empty [StoreOp.putOp ["a"] "x" exVal none 0] :=
  (c6_delete_semantics [StoreOp.putOp ["a"] "x" exVal none 0]
    ["b"] "y").2.2.1 (by decide)

/-- Claim C7, counterexample: `search(("a",))` returns the record stored
under the namespace `("a:b",)` although `("a",)` is not a leading-segment
extension of `("a:b",)` — the scan matches on composite-key strings, not on
namespace paths. -/
theorem c7_counterexample :
    exStoreColl.search ["a"] none 10 0 = [exVal] ∧
    exStoreColl._data = [(_make_key ["a:b"] "c", exVal)] ∧
    ¬ (["a"] : NS) <+: ["a:b"] := by
  exact ⟨by decide, by decide, by decide⟩

/-- Claim C7 (amended): `search` returns exactly the stored records whose
composite key starts with the encoded prefix and which pass the filter
(shown without the pagination cut: offset 0 and at most `limit` matches);
the composite-key test agrees with leading-segment namespace matching when
the prefix is nonempty and all segments and keys are nonempty and
delimiter-free; the filter is an exact-equality conjunction and an absent
filter behaves like the empty one. -/
theorem c7_search_amended {α : Type} [DecidableEq α] :
    (∀ (p ns : NS) (k : String), p ≠ [] →
      (∀ s ∈ p, s ≠ "" ∧ ColonFree s) → (∀ s ∈ ns, s ≠ "" ∧ ColonFree s) →
      ColonFree k →
      (pyStartswith (_make_key ns k) (_make_key p "") = true ↔ p <+: ns)) ∧
    (∀ (v F : Record α), _matches_filter v F = true ↔
      ∀ pr ∈ F, dictGet v pr.1 = some pr.2) ∧
    (∀ (s : InMemoryStore α) (p : NS) (limit offset : Nat),
      s.search p none limit offset = s.search p (some []) limit offset) ∧
    (∀ (s : InMemoryStore α) (p : NS) (F : Option (Record α)) (limit : Nat)
      (v : Record α),
      (s._data.filter (fun kv => pyStartswith kv.1 (_make_key p "") &&
        (match F with
         | none => true
         | some f => _matches_filter kv.2 f))).length ≤ limit →
      (v ∈ s.search p F limit 0 ↔
        ∃ ck, (ck, v) ∈ s._data ∧
          (pyStartswith ck (_make_key p "") &&
            (match F with
             | none => true
             | some f => _matches_filter v f)) = true)) := by
  refine ⟨pyStartswith_make_key_iff, ?_, ?_, ?_⟩
  · intro v F
    rw [_matches_filter, List.all_eq_true]
    constructor
    · intro h pr hpr
      have hb := h pr hpr
      cases hd : dictGet v pr.1 with
      | none => rw [hd] at hb; cases hb
      | some w =>
        rw [hd] at hb
        simp only [decide_eq_true_eq] at hb
        exact congrArg some hb
    · intro h pr hpr
      rw [h pr hpr]
      simp
  · intro s p limit offset
    simp [InMemoryStore.search, _matches_filter]
  · intro s p F limit v hcount
    simp only [InMemoryStore.search, List.drop_zero]
    rw [List.take_of_length_le (by simpa using hcount)]
    constructor
    · intro hv
      obtain ⟨kv, hkv, rfl⟩ := List.mem_map.mp hv
      have hp := List.of_mem_filter hkv
      exact ⟨kv.1, List.mem_of_mem_filter hkv, by simpa using hp⟩
    · rintro ⟨ck, hmem, hpred⟩
      exact List.mem_map.mpr ⟨(ck, v), List.mem_filter.mpr ⟨hmem, hpred⟩, rfl⟩

/-- Claim C7, witness for the amended theorem at concrete inputs. -/
theorem c7_witness :
    (pyStartswith (_make_key ["a","b"] "k") (_make_key ["a"] "") = true ↔
      (["a"] : NS) <+: ["a","b"]) ∧
    (exVal ∈ exStoreA.search ["a"] none 10 0 ↔
      ∃ ck, (ck, exVal) ∈ exStoreA._data ∧
        (pyStartswith ck (_make_key ["a"] "") && true) = true) :=
  ⟨(c7_search_amended (α := Nat)).1 ["a"] ["a","b"] "k" (by decide)
      (by decide) (by decide) (by decide),
   (c7_search_amended (α := Nat)).2.2.2 exStoreA ["a"] none 10 exVal
      (by decide)⟩

/-- Claim C8: `put` with a TTL records the expiry instant `now + ttl * 60`
under the composite key; `put` without a TTL leaves the whole expiry table
unchanged, so an earlier expiry entry survives a later TTL-less `put` of
the same key. -/
theorem c8_ttl_set_and_frame {α : Type} (s : InMemoryStore α) (ns : NS)
    (key : String) (value value2 : Record α) (t now now2 : Rat) :
    dictGet (s.put ns key value (some t) now)._ttl_data (_make_key ns key) =
      some (now + t * 60) ∧
    (s.put ns key value none now)._ttl_data = s._ttl_data ∧
    dictGet ((s.put ns key value (some t) now).put ns key value2 none
      now2)._ttl_data (_make_key ns key) = some (now + t * 60) := by
  refine ⟨?_, rfl, ?_⟩ <;>
    simp [InMemoryStore.put, dictGet_dictInsert]

/-- Claim C9: `put(thread, checkpoint)` replaces the stored checkpoint and
records metadata whose timestamp is the write-time clock reading (hence no
earlier than the call time) and whose size is the length of the string
representation of the checkpoint; `delete(thread)` then removes the value
and the metadata together and excludes the thread from `list_threads`. -/
theorem c9_checkpoint_lifecycle {γ : Type} (pyStr : γ → String)
    (sv : MemorySaver γ) (t : String) (c : γ) (now : Rat) :
    (sv.put pyStr t c now).get t = some c ∧
    (∃ m, (sv.put pyStr t c now).get_metadata t = some m ∧
      now ≤ m.timestamp ∧ m.size = (pyStr c).length) ∧
    ((sv.put pyStr t c now).delete t).get t = none ∧
    ((sv.put pyStr t c now).delete t).get_metadata t = none ∧
    t ∉ ((sv.put pyStr t c now).delete t).list_threads := by
  refine ⟨?_, ⟨⟨now, (pyStr c).length⟩, ?_, le_refl _, rfl⟩, ?_, ?_, ?_⟩
  · simp [MemorySaver.get, MemorySaver.put, dictGet_dictInsert]
  · simp [MemorySaver.get_metadata, MemorySaver.put, dictGet_dictInsert]
  · simp [MemorySaver.get, MemorySaver.delete, dictGet_dictPop]
  · simp [MemorySaver.get_metadata, MemorySaver.delete, dictGet_dictPop]
  · exact not_mem_map_fst_dictPop _ _

/-- Claim C10: the empty namespace prefix is encoded as the bare delimiter
string, so `search(())` only returns records whose composite key starts
with the delimiter, and every record stored under a namespace whose first
segment is nonempty and delimiter-free is omitted. -/
theorem c10_empty_prefix_semantics {α : Type} [DecidableEq α] :
    _make_key ([] : NS) "" = ":" ∧
    (∀ (s : InMemoryStore α) (filter : Option (Record α))
      (limit offset : Nat) (v : Record α),
      v ∈ s.search [] filter limit offset →
      ∃ ck, (ck, v) ∈ s._data ∧ pyStartswith ck ":" = true) ∧
    (∀ (a : String) (rest : NS) (k : String), a ≠ "" → ColonFree a →
      pyStartswith (_make_key (a :: rest) k) (_make_key [] "") = false) := by
  refine ⟨by decide, ?_, pyStartswith_empty_key_false⟩
  intro s filter limit offset v hv
  have h := mem_search_exists s [] filter limit offset v hv
  rwa [show _make_key ([] : NS) "" = ":" by decide] at h

/-- Claim C10, witness at concrete inputs: the record stored under the
empty-segment namespace is reachable through the bare-delimiter prefix,
and a record under an ordinary namespace fails the encoded prefix test. -/
theorem c10_witness :
    (∃ ck, (ck, exVal) ∈ exStoreEmptySeg._data ∧
      pyStartswith ck ":" = true) ∧
    pyStartswith (_make_key ["a"] "k") (_make_key [] "") = false :=
  ⟨(c10_empty_prefix_semantics (α := Nat)).2.1 exStoreEmptySeg none 10 0
      exVal (by decide),
   (c10_empty_prefix_semantics (α := Nat)).2.2 "a" [] "k" (by decide)
      (by decide)⟩

end LangGraphInmem
